import Mathlib

/-!
Shallow embedding of the LDIF codec in `ldif.c` (abook repository).

Bytes are modelled as `Nat` (the value of the `unsigned char`); a C string is
modelled as the list of its bytes up to, and not including, the terminating
NUL, so `0` never occurs inside a modelled line.  Reads of the terminator that
the C code performs (the base-64 group loop may look at the `'\0'` at the end
of the buffer) are modelled with `List.getD _ _ 0`.  Machine-integer overflow
is modelled explicitly (`wrap32`, reduction mod `2 ^ 64`) exactly where the C
code computes in `int` / `size_t`; everywhere else the code only steps through
buffers and no arithmetic can overflow for any input the C code can receive.
-/

/-- C locale `isspace` on a byte value (space, \t, \n, \v, \f, \r). -/
def isspaceB (c : Nat) : Bool :=
  c == 32 || c == 9 || c == 10 || c == 11 || c == 12 || c == 13

/-- C locale `isprint` on a byte value: printable ASCII `0x20 .. 0x7e`. -/
def isprintB (c : Nat) : Bool := 32 ≤ c && c ≤ 126

/-- C `isascii` on a byte value. -/
def isasciiB (c : Nat) : Bool := c < 128

/-- The check `isascii(*byte) && isprint(*byte)` used by the encoder's plain
scan (`put_type_and_value`, the loop at ldif.c:248). -/
def printOKB (c : Nat) : Bool := isasciiB c && isprintB c

/-- The table `nib2b64` of ldif.c:46 as byte values:
`"ABCDEFGHIJKLMNOPQRSTUVWXYZabcdefghijklmnopqrstuvwxyz0123456789+/"`. -/
def nib2b64Tab : List Nat :=
  [65, 66, 67, 68, 69, 70, 71, 72, 73, 74, 75, 76, 77, 78, 79, 80,
   81, 82, 83, 84, 85, 86, 87, 88, 89, 90,
   97, 98, 99, 100, 101, 102, 103, 104, 105, 106, 107, 108, 109, 110,
   111, 112, 113, 114, 115, 116, 117, 118, 119, 120, 121, 122,
   48, 49, 50, 51, 52, 53, 54, 55, 56, 57, 43, 47]

/-- Lookup in `nib2b64` (index is always `< 64` at every use site). -/
def nib2b64 (n : Nat) : Nat := nib2b64Tab.getD n 0

/-- The inverse table `b642nib` of ldif.c:49 (128 entries, `0xff` = invalid). -/
def b642nibTab : List Nat :=
  [255, 255, 255, 255, 255, 255, 255, 255,
   255, 255, 255, 255, 255, 255, 255, 255,
   255, 255, 255, 255, 255, 255, 255, 255,
   255, 255, 255, 255, 255, 255, 255, 255,
   255, 255, 255, 255, 255, 255, 255, 255,
   255, 255, 255, 62, 255, 255, 255, 63,
   52, 53, 54, 55, 56, 57, 58, 59,
   60, 61, 255, 255, 255, 255, 255, 255,
   255, 0, 1, 2, 3, 4, 5, 6,
   7, 8, 9, 10, 11, 12, 13, 14,
   15, 16, 17, 18, 19, 20, 21, 22,
   23, 24, 25, 255, 255, 255, 255, 255,
   255, 26, 27, 28, 29, 30, 31, 32,
   33, 34, 35, 36, 37, 38, 39, 40,
   41, 42, 43, 44, 45, 46, 47, 48,
   49, 50, 51, 255, 255, 255, 255, 255]

/-- Lookup `b642nib[i & 0x7f]`; the stored value as an unsigned byte
(the C array holds `unsigned char`). -/
def b642nib (n : Nat) : Nat := b642nibTab.getD n 255

/-- Low 8 bits of the arithmetic (sign-extending) right shift of the signed
`char` whose bit pattern is `n` (`0 ≤ n < 256`).  The decoder does
`nib >> k` where `nib` is a (signed) `char` holding a `b642nib` entry; for
table values `< 64` this is the plain shift, for the invalid marker `0xff`
the sign bits shift in. -/
def sra8 (n k : Nat) : Nat :=
  if n < 128 then n >>> k else (n >>> k) + (256 - 2 ^ (8 - k))

/-- The validity test of ldif.c:136:
`p[i] != '=' && (p[i] & 0x80 || b642nib[p[i] & 0x7f] > 0x3f)`. -/
def b64InvalidQ (c : Nat) : Bool :=
  !(c == 61) && (decide (128 ≤ c) || decide (63 < b642nib (c % 128)))

/-- First decoded byte of a group (ldif.c:146-151):
`byte[0] = nib0 << 2; byte[0] |= nib1 >> 4;` with `char` stores. -/
def decodeByte0 (p0 p1 : Nat) : Nat :=
  ((((b642nib (p0 % 128)) <<< 2) &&& 255) ||| sra8 (b642nib (p1 % 128)) 4) &&& 255

/-- Second decoded byte of a group (ldif.c:152-159):
`byte[1] = (nib1 & 0xf) << 4; byte[1] |= nib2 >> 2;`. -/
def decodeByte1 (p1 p2 : Nat) : Nat :=
  ((((b642nib (p1 % 128)) &&& 15) <<< 4) ||| sra8 (b642nib (p2 % 128)) 2) &&& 255

/-- Third decoded byte of a group (ldif.c:160-167):
`byte[2] = (nib2 & 0x3) << 6; byte[2] |= nib3;`.  Note that `p3` is never
validity-checked by the C code, so `nib3` may be the invalid marker `0xff`. -/
def decodeByte2 (p2 p3 : Nat) : Nat :=
  ((((b642nib (p2 % 128)) &&& 3) <<< 6) ||| b642nib (p3 % 128)) &&& 255

/-- One step of the base-64 decode loop of `str_parse_line` on a group
`p[0..3]`: the result of the validity check of positions 0-2, the early
termination on `'='` in position 2 (contributing 1 byte) or position 3
(contributing 2 bytes), or a full 3-byte group. -/
inductive B64Step where
  | bad
  | stop (bs : List Nat)
  | cont (bs : List Nat)
deriving DecidableEq, Repr

/-- The body of one iteration of the decode loop (ldif.c:134-169). -/
def b64step (p0 p1 p2 p3 : Nat) : B64Step :=
  if b64InvalidQ p0 || b64InvalidQ p1 || b64InvalidQ p2 then .bad
  else if p2 == 61 then .stop [decodeByte0 p0 p1]
  else if p3 == 61 then .stop [decodeByte0 p0 p1, decodeByte1 p1 p2]
  else .cont [decodeByte0 p0 p1, decodeByte1 p1 p2, decodeByte2 p2 p3]

/-- The base-64 decode loop of `str_parse_line` (ldif.c:131-171) on the text
after the `:: ` separator (markers already removed).  Groups of four are
consumed from the front; when fewer than four characters remain the C code
reads the NUL terminator, modelled by padding with `0` (which always fails
the validity check, so the 1- and 2-character tails error out and the
3-character tail consumes `b642nib[0] = 0xff` unchecked into its third
byte, exactly as the C does). -/
def b64decodeLoop : List Nat → Option (List Nat)
  | [] => some []
  | [p0] =>
    match b64step p0 0 0 0 with
    | .bad => none
    | .stop bs => some bs
    | .cont bs => some bs
  | [p0, p1] =>
    match b64step p0 p1 0 0 with
    | .bad => none
    | .stop bs => some bs
    | .cont bs => some bs
  | [p0, p1, p2] =>
    match b64step p0 p1 p2 0 with
    | .bad => none
    | .stop bs => some bs
    | .cont bs => some bs
  | p0 :: p1 :: p2 :: p3 :: rest =>
    match b64step p0 p1 p2 p3 with
    | .bad => none
    | .stop bs => some bs
    | .cont bs => (b64decodeLoop rest).map (fun tail => bs ++ tail)

/-- Error sites of `str_parse_line`, named after the spec's error kinds:
ldif.c:89 (no colon), ldif.c:117 (nothing after the colon(s)),
ldif.c:138 (invalid base-64 character). -/
inductive ParseErr where
  | missingSeparator
  | missingValue
  | invalidBase64Char
deriving DecidableEq, Repr

/-- Result of `str_parse_line`: an error, or the `(type, value, vlen)`
triple written through the out parameters. -/
inductive ParseResult where
  | err (e : ParseErr)
  | ok (t : List Nat) (v : List Nat) (n : Nat)
deriving DecidableEq, Repr

/-- Trailing-whitespace trim between the type and the colon (ldif.c:96). -/
def trimTrailing (xs : List Nat) : List Nat :=
  (xs.reverse.dropWhile isspaceB).reverse

/-- `str_parse_line` (ldif.c:75-177).  The input is one logical line (bytes up
to the NUL); continuation-marker bytes `'\001'` may still be embedded and are
removed before the value is produced, after the emptiness check, exactly in
the order of the C code. -/
def str_parse_line (line : List Nat) : ParseResult :=
  let l1 := line.dropWhile isspaceB
  let ty := l1.takeWhile (fun c => !(c == 58))
  match l1.dropWhile (fun c => !(c == 58)) with
  | [] => .err .missingSeparator
  | _ :: afterColon =>
    let tyT := trimTrailing ty
    let b64 := afterColon.headD 0 == 58
    let s1 := if b64 then afterColon.tail else afterColon
    let s2 := s1.dropWhile isspaceB
    if s2.isEmpty then .err .missingValue
    else
      let s3 := s2.filter (fun c => !(c == 1))
      if b64 then
        match b64decodeLoop s3 with
        | none => .err .invalidBase64Char
        | some bs => .ok tyT bs bs.length
      else .ok tyT s3 s3.length

/-- The line-folding step shared by the three output loops of
`put_type_and_value` (ldif.c:254-259, 275-279, 301-305): before each payload
character, if the running count exceeds `LDIF_LINE_WIDTH = 76` a newline and
one folding space are emitted and the count restarts; the character itself is
then emitted and counted. -/
def foldSpaced (p : List Nat) (len : Nat) : List Nat :=
  match p with
  | [] => []
  | b :: rest =>
    if 76 < len then 10 :: 32 :: b :: foldSpaced rest 2
    else b :: foldSpaced rest (len + 1)

/-- The image of `foldSpaced` under the external line-joiner: each inserted
newline-plus-folding-space pair becomes two continuation-marker bytes
`'\001'`. -/
def foldMarked (p : List Nat) (len : Nat) : List Nat :=
  match p with
  | [] => []
  | b :: rest =>
    if 76 < len then 1 :: 1 :: b :: foldMarked rest 2
    else b :: foldMarked rest (len + 1)

/-- The running count after `foldSpaced p len` has emitted all of `p`. -/
def lenAfter (p : List Nat) (len : Nat) : Nat :=
  match p with
  | [] => len
  | _ :: rest => if 76 < len then lenAfter rest 2 else lenAfter rest (len + 1)

/-- The plain-text output loop of `put_type_and_value` (ldif.c:248-260): emit
value bytes with folding, or discover a byte failing
`isascii && isprint` and bail out to the base-64 representation (`none`). -/
def plainScan (v : List Nat) (len : Nat) : Option (List Nat) :=
  match v with
  | [] => some []
  | b :: rest =>
    if !printOKB b then none
    else if 76 < len then (plainScan rest 2).map (fun o => 10 :: 32 :: b :: o)
    else (plainScan rest (len + 1)).map (fun o => b :: o)

/-- The base-64 digits of one 3-byte group (ldif.c:270-283 and 296-309):
`bits` is assembled from the three bytes and the four digits are extracted
six bits at a time from the top, via `(bits & 0xfc0000) >> 18` with
`bits <<= 6` between digits. -/
def digits4 (b0 b1 b2 : Nat) : List Nat :=
  let bits := (((b0 &&& 255) <<< 16) ||| ((b1 &&& 255) <<< 8)) ||| (b2 &&& 255)
  [nib2b64 ((bits &&& 0xfc0000) >>> 18),
   nib2b64 (((bits <<< 6) &&& 0xfc0000) >>> 18),
   nib2b64 (((bits <<< 12) &&& 0xfc0000) >>> 18),
   nib2b64 (((bits <<< 18) &&& 0xfc0000) >>> 18)]

/-- The unfolded base-64 digit stream of a value: full 3-byte groups while at
least three bytes remain (ldif.c:268), then the final partial group
zero-padded to three bytes (ldif.c:288-298).  `'='` padding is not applied
here — the C code overwrites the last emitted characters afterwards. -/
def b64chunksDigits : List Nat → List Nat
  | b0 :: b1 :: b2 :: rest => digits4 b0 b1 b2 ++ b64chunksDigits rest
  | [b0] => digits4 b0 0 0
  | [b0, b1] => digits4 b0 b1 0
  | [] => []

/-- Number of `'='` pad characters (ldif.c:292: `pad` counts the zero-filled
bytes of the final group). -/
def padOf (n : Nat) : Nat :=
  if n % 3 == 1 then 2 else if n % 3 == 2 then 1 else 0

/-- The pad overwrite of ldif.c:312-314: `*(*out - pad) = '='` for the last
`pad` positions of the output emitted so far. -/
def replaceLastEq (pad : Nat) (xs : List Nat) : List Nat :=
  xs.take (xs.length - pad) ++ List.replicate pad 61

/-- The test of ldif.c:245 selecting base 64 from the first value byte:
`isascii(val[0]) && (ISSPACE(val[0]) || val[0] == ':')`.  With `vlen = 0`
the C code reads the terminator of the value buffer, modelled by
`headD 0`. -/
def firstSpecial (v : List Nat) : Bool :=
  isasciiB (v.headD 0) && (isspaceB (v.headD 0) || v.headD 0 == 58)

/-- `put_type_and_value` (ldif.c:223-318) as the byte string it appends at
`*out`: the type, `':'`, then either `' '` and the folded plain value, or —
when the first byte is special or the plain scan finds a non-printable
byte — the rewind to `save` followed by `':'`, `' '` and the folded base-64
digits with the `'='` pad overwrite, and the final `'\n'`.
The running count starts at `strlen(t) + 1` after the first colon (the
space written at ldif.c:241 is not counted — `savelen` is taken before it),
and at `savelen + 2 = strlen(t) + 3` on the base-64 path (ldif.c:266). -/
def put_type_and_value (t v : List Nat) : List Nat :=
  match (if firstSpecial v then none else plainScan v (t.length + 1)) with
  | some body => t ++ 58 :: 32 :: (body ++ [10])
  | none =>
    t ++ 58 :: 58 :: 32 ::
      (replaceLastEq (padOf v.length)
        (foldSpaced (b64chunksDigits v) (t.length + 3)) ++ [10])

/-- The representation choice of the encoder: `true` exactly when
`put_type_and_value` takes the base-64 path. -/
def encodeB64Sel (t v : List Nat) : Bool :=
  firstSpecial v || (plainScan v (t.length + 1)).isNone

/-- `LDIF_BASE64_LEN` (ldif.c:33) over unbounded naturals. -/
def LDIF_BASE64_LEN (vlen : Nat) : Nat := vlen * 4 / 3 + 3

/-- `LDIF_SIZE_NEEDED` (ldif.c:35-37) over unbounded naturals: the worst-case
fragment size the allocator relies on. -/
def LDIF_SIZE_NEEDED (tlen vlen : Nat) : Nat :=
  tlen + 4 + LDIF_BASE64_LEN vlen +
    (LDIF_BASE64_LEN vlen + tlen + 3) / 76 * 2

/-- Two's-complement wrap of a C `int` (32 bits). -/
def wrap32 (x : Int) : Int := (x + 2 ^ 31) % 2 ^ 32 - 2 ^ 31

/-- `LDIF_BASE64_LEN` as the C `int` computation, wrapping at each step;
`Int.div` is C's truncating division. -/
def ldif_base64_len_i (vlen : Int) : Int :=
  wrap32 (Int.tdiv (wrap32 (vlen * 4)) 3 + 3)

/-- `LDIF_SIZE_NEEDED` as the C `int` computation (ldif.c:333). -/
def ldif_size_needed_i (tlen vlen : Int) : Int :=
  wrap32 (tlen + 4 + ldif_base64_len_i vlen +
    wrap32 (Int.tdiv (wrap32 (ldif_base64_len_i vlen + tlen + 3)) 76 * 2))

/-- Conversion of the `int` result to `size_t` (64 bits, sign-extending). -/
def toSizeT (x : Int) : Nat := (x % 2 ^ 64).toNat

/-- The overflow check of `ldif_type_and_value` (ldif.c:334):
`if ((bufsize = t + 1) <= t) return NULL;` — `true` means the check passes
and the buffer is allocated. -/
def ldifCheckPasses (tlen vlen : Int) : Bool :=
  let t := toSizeT (ldif_size_needed_i tlen vlen)
  !((t + 1) % 2 ^ 64 ≤ t : Bool)

/-- `ldif_type_and_value` (ldif.c:321-346): `none` models returning `NULL`
from the overflow check (allocation failure is abstracted away — `malloc` is
assumed to succeed). -/
def ldif_type_and_value (t v : List Nat) : Option (List Nat) :=
  if ldifCheckPasses (t.length : Int) (v.length : Int)
  then some (put_type_and_value t v)
  else none

/-- Modelled from the spec: the upstream line-joiner (the `str_getline`
routine is present in ldif.c only under `#if 0` and the spec treats the
joiner as an external collaborator that "merges continuation lines and marks
former line breaks with a private sentinel byte").  Scanning for `'\n'`: when
the following byte is whitespace other than `'\n'`, both bytes become
`CONTINUED_LINE_MARKER = '\001'` and scanning continues; otherwise the
logical line ends at the `'\n'`. -/
def joinScan : List Nat → List Nat
  | [] => []
  | 10 :: c :: rest =>
    if isspaceB c && !(c == 10) then 1 :: 1 :: joinScan rest else []
  | [10] => []
  | c :: rest => c :: joinScan rest

/-- Bytes of a well-formed LDIF attribute name: non-empty, printable ASCII,
no whitespace, no colon (spec §3: "a short ASCII token … with no embedded
colon or leading/trailing whitespace; non-empty"). -/
def ValidType (t : List Nat) : Prop :=
  t ≠ [] ∧ ∀ c ∈ t, 33 ≤ c ∧ c ≤ 126 ∧ c ≠ 58

/-- All bytes of a value are byte values (the C value buffer holds
`unsigned char`s). -/
def ValidBytes (v : List Nat) : Prop := ∀ b ∈ v, b < 256

/-- The pad/fold collision of the encoder: when `vlen % 3 = 1` the C code
overwrites the last two emitted characters with `'='` (ldif.c:312-314); if a
fold was emitted immediately before the last digit, the second-to-last
character of the folded digit stream is the folding space, and the overwrite
destroys it. -/
def padFoldCollision (t v : List Nat) : Prop :=
  padOf v.length = 2 ∧
    (foldSpaced (b64chunksDigits v) (t.length + 3)).getD
      ((foldSpaced (b64chunksDigits v) (t.length + 3)).length - 2) 0 = 32

/-- Furthest buffer position (exclusive) written by `put_type_and_value` plus
the closing NUL of `ldif_type_and_value`: the final fragment plus NUL, or the
transient plain-path prefix emitted before a non-printable byte forces the
rewind to `save` (ldif.c:263). -/
def maxWriteExtent (t v : List Nat) : Nat :=
  max ((put_type_and_value t v).length + 1)
    (t.length + 2 + (foldSpaced (v.takeWhile printOKB) (t.length + 1)).length + 1)

theorem lor_shift_add {k b : Nat} (a : Nat) (hb : b < 2 ^ k) :
    (a <<< k) ||| b = a * 2 ^ k + b := by
  rw [Nat.shiftLeft_eq, Nat.mul_comm a (2 ^ k), ← Nat.mul_add_lt_is_or hb a]

theorem and255 (x : Nat) : x &&& 255 = x % 256 := by
  have h := Nat.and_pow_two_sub_one_eq_mod x 8
  norm_num at h
  exact h

theorem extract_fc (x : Nat) : (x &&& 0xfc0000) >>> 18 = x / 2 ^ 18 % 64 := by
  have h : (0xfc0000 : Nat) = (2 ^ 6 - 1) <<< 18 := by decide
  have h64 : (64 : Nat) = 2 ^ 6 := by decide
  rw [h, ← Nat.shiftRight_eq_div_pow, h64]
  apply Nat.eq_of_testBit_eq
  intro i
  simp only [Nat.testBit_shiftRight, Nat.testBit_and, Nat.testBit_shiftLeft,
    Nat.testBit_mod_two_pow, Nat.testBit_two_pow_sub_one]
  have e1 : 18 + i ≥ 18 := by omega
  have e2 : 18 + i - 18 = i := by omega
  simp [e1, e2, Bool.and_comm]

theorem bits_eq (b0 b1 b2 : Nat) (h0 : b0 < 256) (h1 : b1 < 256) (h2 : b2 < 256) :
    (((b0 &&& 255) <<< 16) ||| ((b1 &&& 255) <<< 8)) ||| (b2 &&& 255) =
      b0 * 65536 + b1 * 256 + b2 := by
  rw [and255, and255, and255, Nat.mod_eq_of_lt h0, Nat.mod_eq_of_lt h1, Nat.mod_eq_of_lt h2]
  have i1 : (b1 <<< 8) < 2 ^ 16 := by rw [Nat.shiftLeft_eq]; omega
  rw [lor_shift_add b0 i1, Nat.shiftLeft_eq b1 8]
  have e : b0 * 2 ^ 16 + b1 * 2 ^ 8 = (b0 * 256 + b1) <<< 8 := by
    rw [Nat.shiftLeft_eq]; ring
  rw [e, lor_shift_add _ (show b2 < 2 ^ 8 by omega)]
  ring

theorem digits4_eq (b0 b1 b2 : Nat) (h0 : b0 < 256) (h1 : b1 < 256) (h2 : b2 < 256) :
    digits4 b0 b1 b2 = [nib2b64 (b0 / 4), nib2b64 (b0 % 4 * 16 + b1 / 16),
      nib2b64 (b1 % 16 * 4 + b2 / 64), nib2b64 (b2 % 64)] := by
  have hb := bits_eq b0 b1 b2 h0 h1 h2
  have e0 : (b0*65536+b1*256+b2) / 2^18 % 64 = b0/4 := by omega
  have e1 : (b0*65536+b1*256+b2) * 2^6 / 2^18 % 64 = b0%4*16 + b1/16 := by omega
  have e2 : (b0*65536+b1*256+b2) * 2^12 / 2^18 % 64 = b1%16*4 + b2/64 := by omega
  have e3 : (b0*65536+b1*256+b2) * 2^18 / 2^18 % 64 = b2%64 := by omega
  simp only [digits4]
  rw [hb]
  simp only [extract_fc, Nat.shiftLeft_eq, e0, e1, e2, e3]

theorem nib2b64_props : ∀ n, n < 64 → b642nib (nib2b64 n) = n ∧ nib2b64 n < 128 ∧
    33 ≤ nib2b64 n ∧ nib2b64 n ≤ 126 ∧ nib2b64 n ≠ 61 ∧ nib2b64 n ≠ 58 ∧
    nib2b64 n ≠ 32 ∧ nib2b64 n ≠ 10 ∧ nib2b64 n ≠ 1 ∧
    b64InvalidQ (nib2b64 n) = false ∧ isspaceB (nib2b64 n) = false := by decide

theorem decodeByte0_eq (b0 b1 : Nat) (h0 : b0 < 256) (h1 : b1 < 256) :
    decodeByte0 (nib2b64 (b0 / 4)) (nib2b64 (b0 % 4 * 16 + b1 / 16)) = b0 := by
  have n0 : b0 / 4 < 64 := by omega
  have n1 : b0 % 4 * 16 + b1 / 16 < 64 := by omega
  have p0 := nib2b64_props _ n0
  have p1 := nib2b64_props _ n1
  unfold decodeByte0 sra8
  rw [Nat.mod_eq_of_lt p0.2.1, Nat.mod_eq_of_lt p1.2.1, p0.1, p1.1,
    if_pos (show b0 % 4 * 16 + b1 / 16 < 128 by omega)]
  simp only [Nat.shiftRight_eq_div_pow, and255]
  rw [Nat.mod_eq_of_lt (show (b0 / 4) <<< 2 < 256 by rw [Nat.shiftLeft_eq]; omega),
    lor_shift_add _ (show (b0 % 4 * 16 + b1 / 16) / 2 ^ 4 < 2 ^ 2 by omega)]
  omega

theorem and15 (x : Nat) : x &&& 15 = x % 16 := by
  have h := Nat.and_pow_two_sub_one_eq_mod x 4
  norm_num at h
  exact h

theorem and3 (x : Nat) : x &&& 3 = x % 4 := by
  have h := Nat.and_pow_two_sub_one_eq_mod x 2
  norm_num at h
  exact h

theorem decodeByte1_eq (b0 b1 b2 : Nat) (h0 : b0 < 256) (h1 : b1 < 256) (h2 : b2 < 256) :
    decodeByte1 (nib2b64 (b0 % 4 * 16 + b1 / 16)) (nib2b64 (b1 % 16 * 4 + b2 / 64)) = b1 := by
  have n1 : b0 % 4 * 16 + b1 / 16 < 64 := by omega
  have n2 : b1 % 16 * 4 + b2 / 64 < 64 := by omega
  have p1 := nib2b64_props _ n1
  have p2 := nib2b64_props _ n2
  unfold decodeByte1 sra8
  rw [Nat.mod_eq_of_lt p1.2.1, Nat.mod_eq_of_lt p2.2.1, p1.1, p2.1,
    if_pos (show b1 % 16 * 4 + b2 / 64 < 128 by omega)]
  simp only [Nat.shiftRight_eq_div_pow, and255, and15]
  rw [lor_shift_add _ (show (b1 % 16 * 4 + b2 / 64) / 2 ^ 2 < 2 ^ 4 by omega)]
  omega

theorem decodeByte2_eq (b1 b2 : Nat) (h1 : b1 < 256) (h2 : b2 < 256) :
    decodeByte2 (nib2b64 (b1 % 16 * 4 + b2 / 64)) (nib2b64 (b2 % 64)) = b2 := by
  have n2 : b1 % 16 * 4 + b2 / 64 < 64 := by omega
  have n3 : b2 % 64 < 64 := by omega
  have p2 := nib2b64_props _ n2
  have p3 := nib2b64_props _ n3
  unfold decodeByte2
  rw [Nat.mod_eq_of_lt p2.2.1, Nat.mod_eq_of_lt p3.2.1, p2.1, p3.1]
  simp only [and255, and3]
  rw [lor_shift_add _ (show b2 % 64 < 2 ^ 6 by omega)]
  omega

theorem nib_roundtrip : ∀ n, n < 64 → b642nib (nib2b64 n) = n := by decide

theorem nib_lt128 : ∀ n, n < 64 → nib2b64 n < 128 := by decide

theorem nib_valid : ∀ n, n < 64 → b64InvalidQ (nib2b64 n) = false := by decide

theorem nib_ne61 : ∀ n, n < 64 → (nib2b64 n == 61) = false := by decide

theorem eq61_invalidQ : b64InvalidQ 61 = false := by decide

theorem b64step_full (b0 b1 b2 : Nat) (h0 : b0 < 256) (h1 : b1 < 256) (h2 : b2 < 256) :
    b64step (nib2b64 (b0 / 4)) (nib2b64 (b0 % 4 * 16 + b1 / 16))
      (nib2b64 (b1 % 16 * 4 + b2 / 64)) (nib2b64 (b2 % 64)) = .cont [b0, b1, b2] := by
  unfold b64step
  rw [nib_valid _ (show b0 / 4 < 64 by omega),
    nib_valid _ (show b0 % 4 * 16 + b1 / 16 < 64 by omega),
    nib_valid _ (show b1 % 16 * 4 + b2 / 64 < 64 by omega),
    nib_ne61 _ (show b1 % 16 * 4 + b2 / 64 < 64 by omega),
    nib_ne61 _ (show b2 % 64 < 64 by omega)]
  simp only [Bool.or_self, Bool.false_eq_true, if_false]
  rw [decodeByte0_eq b0 b1 h0 h1, decodeByte1_eq b0 b1 b2 h0 h1 h2,
    decodeByte2_eq b1 b2 h1 h2]

theorem b64step_pad2 (b0 : Nat) (h0 : b0 < 256) :
    b64step (nib2b64 (b0 / 4)) (nib2b64 (b0 % 4 * 16)) 61 61 = .stop [b0] := by
  unfold b64step
  rw [nib_valid _ (show b0 / 4 < 64 by omega),
    nib_valid _ (show b0 % 4 * 16 < 64 by omega), eq61_invalidQ]
  simp only [Bool.or_self, Bool.false_eq_true, if_false, beq_self_eq_true, if_true]
  have h := decodeByte0_eq b0 0 h0 (by omega)
  simp only [Nat.zero_div, Nat.add_zero] at h
  rw [h]

theorem b64step_pad1 (b0 b1 : Nat) (h0 : b0 < 256) (h1 : b1 < 256) :
    b64step (nib2b64 (b0 / 4)) (nib2b64 (b0 % 4 * 16 + b1 / 16))
      (nib2b64 (b1 % 16 * 4)) 61 = .stop [b0, b1] := by
  unfold b64step
  rw [nib_valid _ (show b0 / 4 < 64 by omega),
    nib_valid _ (show b0 % 4 * 16 + b1 / 16 < 64 by omega),
    nib_valid _ (show b1 % 16 * 4 < 64 by omega),
    nib_ne61 _ (show b1 % 16 * 4 < 64 by omega)]
  simp only [Bool.or_self, Bool.false_eq_true, if_false, beq_self_eq_true, if_true]
  rw [decodeByte0_eq b0 b1 h0 h1]
  have h := decodeByte1_eq b0 b1 0 h0 h1 (by omega)
  simp only [Nat.zero_div, Nat.add_zero] at h
  rw [h]

theorem replaceLastEq_append (pad : Nat) (xs ys : List Nat) (h : pad ≤ ys.length) :
    replaceLastEq pad (xs ++ ys) = xs ++ replaceLastEq pad ys := by
  unfold replaceLastEq
  rw [List.length_append, List.take_append_eq_append_take,
    List.take_of_length_le (by omega),
    show xs.length + ys.length - pad - xs.length = ys.length - pad by omega,
    List.append_assoc]

theorem replaceLastEq_zero (xs : List Nat) : replaceLastEq 0 xs = xs := by
  simp [replaceLastEq]

theorem chunks_length : ∀ v : List Nat, (b64chunksDigits v).length = 4 * ((v.length + 2) / 3)
  | [] => by simp [b64chunksDigits]
  | [b0] => by simp [b64chunksDigits, digits4]
  | [b0, b1] => by simp [b64chunksDigits, digits4]
  | b0 :: b1 :: b2 :: rest => by
    have ih := chunks_length rest
    simp only [b64chunksDigits, List.length_append, ih, digits4, List.length_cons]
    simp
    omega

theorem b64_roundtrip : ∀ v : List Nat, ValidBytes v →
    b64decodeLoop (replaceLastEq (padOf v.length) (b64chunksDigits v)) = some v
  | [], _ => by decide
  | [b0], h => by
    have h0 : b0 < 256 := h b0 (by simp)
    simp only [b64chunksDigits]
    rw [digits4_eq b0 0 0 h0 (by omega) (by omega)]
    show b64decodeLoop (replaceLastEq 2 _) = _
    simp only [replaceLastEq, List.length_cons, List.length_nil]
    norm_num [List.take]
    show b64decodeLoop (_ :: _ :: 61 :: 61 :: []) = _
    simp only [b64decodeLoop]
    have hs := b64step_pad2 b0 h0
    simp only [Nat.zero_div, Nat.mul_zero, Nat.add_zero, Nat.zero_mul] at *
    rw [hs]
  | [b0, b1], h => by
    have h0 : b0 < 256 := h b0 (by simp)
    have h1 : b1 < 256 := h b1 (by simp)
    simp only [b64chunksDigits]
    rw [digits4_eq b0 b1 0 h0 h1 (by omega)]
    show b64decodeLoop (replaceLastEq 1 _) = _
    simp only [replaceLastEq, List.length_cons, List.length_nil]
    norm_num [List.take]
    show b64decodeLoop (_ :: _ :: _ :: 61 :: []) = _
    simp only [b64decodeLoop]
    have hs := b64step_pad1 b0 b1 h0 h1
    simp only [Nat.zero_div, Nat.mul_zero, Nat.add_zero, Nat.zero_mul] at *
    rw [hs]
  | b0 :: b1 :: b2 :: rest, h => by
    have h0 : b0 < 256 := h b0 (by simp)
    have h1 : b1 < 256 := h b1 (by simp)
    have h2 : b2 < 256 := h b2 (by simp)
    have hr : ValidBytes rest := fun b hb => h b (by simp [hb])
    have ih := b64_roundtrip rest hr
    have hple : padOf (b0 :: b1 :: b2 :: rest).length ≤ 2 := by
      unfold padOf
      split
      · omega
      · split <;> omega
    have hpadle : padOf (b0 :: b1 :: b2 :: rest).length ≤ (b64chunksDigits rest).length := by
      rw [chunks_length]
      match rest with
      | [] =>
        simp only [List.length_cons, List.length_nil]
        simp [padOf]
      | x :: xs =>
        have : 4 * (((x :: xs).length + 2) / 3) ≥ 4 := by
          simp only [List.length_cons]
          omega
        omega
    have hpad : padOf (b0 :: b1 :: b2 :: rest).length = padOf rest.length := by
      have e : (rest.length + 1 + 1 + 1) % 3 = rest.length % 3 := by omega
      simp only [padOf, List.length_cons, e]
    simp only [b64chunksDigits]
    rw [replaceLastEq_append _ _ _ (hpad ▸ hpadle), hpad,
      digits4_eq b0 b1 b2 h0 h1 h2]
    show b64decodeLoop (_ :: _ :: _ :: _ :: _) = _
    simp only [b64decodeLoop]
    rw [b64step_full b0 b1 b2 h0 h1 h2]
    simp only [List.append_eq, List.nil_append]
    rw [ih]
    rfl

theorem foldSpaced_append (xs ys : List Nat) (len : Nat) :
    foldSpaced (xs ++ ys) len = foldSpaced xs len ++ foldSpaced ys (lenAfter xs len) := by
  induction xs generalizing len with
  | nil => simp [foldSpaced, lenAfter]
  | cons b rest ih =>
    simp only [List.cons_append, foldSpaced, lenAfter]
    split <;> simp [ih]

theorem foldSpaced_length_le (p : List Nat) (len : Nat) (h : 1 ≤ len) :
    (foldSpaced p len).length ≤ p.length + 2 * ((p.length + len - 1) / 76) := by
  induction p generalizing len with
  | nil => simp [foldSpaced]
  | cons b rest ih =>
    simp only [foldSpaced]
    split
    · have h2 := ih 2 (by omega)
      simp only [List.length_cons]
      have hd : (rest.length + 1) / 76 + 1 ≤ (rest.length + 1 + len - 1) / 76 := by omega
      omega
    · have h2 := ih (len + 1) (by omega)
      simp only [List.length_cons]
      have hd : (rest.length + (len + 1) - 1) / 76 = (rest.length + 1 + len - 1) / 76 := by
        congr 1
        omega
      omega

theorem foldSpaced_count (p : List Nat) (len : Nat) (c : Nat) (h10 : c ≠ 10) (h32 : c ≠ 32) :
    (foldSpaced p len).count c = p.count c := by
  induction p generalizing len with
  | nil => simp [foldSpaced]
  | cons b rest ih =>
    simp only [foldSpaced]
    split <;> simp [List.count_cons, ih, h10, h32]

theorem joinScan_cons (c : Nat) (rest : List Nat) (hc : c ≠ 10) :
    joinScan (c :: rest) = c :: joinScan rest := by
  cases rest <;> simp [joinScan, hc]

theorem joinScan_fold10 (c : Nat) (rest : List Nat) (h : (isspaceB c && !(c == 10)) = true) :
    joinScan (10 :: c :: rest) = 1 :: 1 :: joinScan rest := by
  simp [joinScan, h]

theorem joinScan_append (xs ys : List Nat) (h : ∀ b ∈ xs, b ≠ 10) :
    joinScan (xs ++ ys) = xs ++ joinScan ys := by
  induction xs with
  | nil => simp
  | cons b rest ih =>
    have hb : b ≠ 10 := h b (by simp)
    have hr : ∀ c ∈ rest, c ≠ 10 := fun c hc => h c (by simp [hc])
    rw [List.cons_append, joinScan_cons b _ hb, ih hr, List.cons_append]

theorem joinScan_foldSpaced (p : List Nat) (len : Nat) (h : ∀ b ∈ p, b ≠ 10) :
    joinScan (foldSpaced p len ++ [10]) = foldMarked p len := by
  induction p generalizing len with
  | nil => simp [foldSpaced, foldMarked, joinScan]
  | cons b rest ih =>
    have hb : b ≠ 10 := h b (by simp)
    have hr : ∀ c ∈ rest, c ≠ 10 := fun c hc => h c (by simp [hc])
    simp only [foldSpaced, foldMarked]
    split
    · show joinScan (10 :: 32 :: (b :: (foldSpaced rest 2 ++ [10]))) = _
      rw [joinScan_fold10 32 _ (by decide), joinScan_cons b _ hb, ih 2 hr]
    · show joinScan (b :: (foldSpaced rest (len + 1) ++ [10])) = _
      rw [joinScan_cons b _ hb, ih _ hr]

theorem filter_foldMarked (p : List Nat) (len : Nat) (h : ∀ b ∈ p, b ≠ 1) :
    (foldMarked p len).filter (fun c => !(c == 1)) = p := by
  induction p generalizing len with
  | nil => simp [foldMarked]
  | cons b rest ih =>
    have hb : b ≠ 1 := h b (by simp)
    have hr : ∀ c ∈ rest, c ≠ 1 := fun c hc => h c (by simp [hc])
    simp only [foldMarked]
    split <;> simp [List.filter_cons, hb, ih _ hr]

theorem foldMarked_shape (b : Nat) (rest : List Nat) (len : Nat) :
    foldMarked (b :: rest) len = 1 :: 1 :: b :: foldMarked rest 2 ∨
      foldMarked (b :: rest) len = b :: foldMarked rest (len + 1) := by
  simp only [foldMarked]
  split
  · exact Or.inl rfl
  · exact Or.inr rfl


theorem foldSpaced_single (a : Nat) (len : Nat) :
    foldSpaced [a] len = if 76 < len then [10, 32, a] else [a] := by
  show (if 76 < len then 10 :: 32 :: a :: foldSpaced [] 2
        else a :: foldSpaced [] (len + 1)) = _
  split <;> rfl

theorem foldSpaced_pair (a b : Nat) (len : Nat) :
    foldSpaced [a, b] len =
      if 76 < len then [10, 32, a, b]
      else if len = 76 then [a, 10, 32, b] else [a, b] := by
  show (if 76 < len then 10 :: 32 :: a :: foldSpaced [b] 2
        else a :: foldSpaced [b] (len + 1)) = _
  by_cases h : 76 < len
  · rw [if_pos h, if_pos h]
    rfl
  · rw [if_neg h, if_neg h, foldSpaced_single]
    by_cases h2 : len = 76
    · rw [if_pos (by omega), if_pos h2]
    · rw [if_neg (by omega), if_neg h2]

theorem exists_split_pair : ∀ xs : List Nat, 2 ≤ xs.length →
    ∃ init c d, xs = init ++ [c, d]
  | [c, d], _ => ⟨[], c, d, rfl⟩
  | a :: b :: c :: rest, _ => by
    obtain ⟨init, x, y, hxy⟩ := exists_split_pair (b :: c :: rest) (by simp)
    exact ⟨a :: init, x, y, by simp [hxy]⟩

theorem replaceLast1_commute (init : List Nat) (d L0 : Nat) :
    replaceLastEq 1 (foldSpaced (init ++ [d]) L0) = foldSpaced (init ++ [61]) L0 := by
  have hle : 1 ≤ (foldSpaced [d] (lenAfter init L0)).length := by
    rw [foldSpaced_single]
    split <;> simp
  rw [foldSpaced_append, foldSpaced_append,
    replaceLastEq_append 1 _ _ hle, foldSpaced_single, foldSpaced_single]
  split <;> rfl

theorem replaceLast2_commute (init : List Nat) (c d L0 : Nat)
    (hnc : lenAfter init L0 ≠ 76) :
    replaceLastEq 2 (foldSpaced (init ++ [c, d]) L0) = foldSpaced (init ++ [61, 61]) L0 := by
  by_cases h76 : 76 < lenAfter init L0
  · have e : foldSpaced [c, d] (lenAfter init L0) = [10, 32, c, d] := by
      rw [foldSpaced_pair, if_pos h76]
    have e2 : foldSpaced [61, 61] (lenAfter init L0) = [10, 32, 61, 61] := by
      rw [foldSpaced_pair, if_pos h76]
    rw [foldSpaced_append, e, replaceLastEq_append 2 _ _ (by simp),
      foldSpaced_append, e2]
    rfl
  · have e : foldSpaced [c, d] (lenAfter init L0) = [c, d] := by
      rw [foldSpaced_pair, if_neg h76, if_neg hnc]
    have e2 : foldSpaced [61, 61] (lenAfter init L0) = [61, 61] := by
      rw [foldSpaced_pair, if_neg h76, if_neg hnc]
    rw [foldSpaced_append, e, replaceLastEq_append 2 _ _ (by simp),
      foldSpaced_append, e2]
    rfl

theorem collision_char (init : List Nat) (c d L0 : Nat) (hc : c ≠ 32) :
    ((foldSpaced (init ++ [c, d]) L0).getD
        ((foldSpaced (init ++ [c, d]) L0).length - 2) 0 = 32) ↔
      lenAfter init L0 = 76 := by
  rw [foldSpaced_append]
  by_cases h76 : 76 < lenAfter init L0
  · have e : foldSpaced [c, d] (lenAfter init L0) = [10, 32, c, d] := by
      rw [foldSpaced_pair, if_pos h76]
    rw [e]
    have hL : (foldSpaced init L0 ++ [10, 32, c, d]).length - 2 =
        (foldSpaced init L0).length + 2 := by
      simp
    rw [hL, List.getD_append_right _ _ _ _ (by omega)]
    have hI : (foldSpaced init L0).length + 2 - (foldSpaced init L0).length = 2 := by omega
    rw [hI]
    constructor
    · intro hx
      exact absurd (by simpa using hx) hc
    · intro hx
      omega
  · by_cases heq : lenAfter init L0 = 76
    · have e : foldSpaced [c, d] (lenAfter init L0) = [c, 10, 32, d] := by
        rw [foldSpaced_pair, if_neg h76, if_pos heq]
      rw [e]
      have hL : (foldSpaced init L0 ++ [c, 10, 32, d]).length - 2 =
          (foldSpaced init L0).length + 2 := by
        simp
      rw [hL, List.getD_append_right _ _ _ _ (by omega)]
      have hI : (foldSpaced init L0).length + 2 - (foldSpaced init L0).length = 2 := by omega
      rw [hI]
      simp [heq]
    · have e : foldSpaced [c, d] (lenAfter init L0) = [c, d] := by
        rw [foldSpaced_pair, if_neg h76, if_neg heq]
      rw [e]
      have hL : (foldSpaced init L0 ++ [c, d]).length - 2 =
          (foldSpaced init L0).length := by
        simp
      rw [hL, List.getD_append_right _ _ _ _ (by omega)]
      have hI : (foldSpaced init L0).length - (foldSpaced init L0).length = 0 := by omega
      rw [hI]
      constructor
      · intro hx
        exact absurd (by simpa using hx) hc
      · intro hx
        exact absurd hx heq

theorem isspaceB_false_of_33 (c : Nat) (h1 : 33 ≤ c) : isspaceB c = false := by
  simp only [isspaceB, Bool.or_eq_false_iff, beq_eq_false_iff_ne]
  omega

theorem scan_colon (t X : List Nat) (h : ∀ c ∈ t, c ≠ 58) :
    (t ++ 58 :: X).takeWhile (fun c => !(c == 58)) = t ∧
      (t ++ 58 :: X).dropWhile (fun c => !(c == 58)) = 58 :: X := by
  induction t with
  | nil => simp [List.takeWhile_cons, List.dropWhile_cons]
  | cons a rest ih =>
    have ha : a ≠ 58 := h a (by simp)
    have hr := ih (fun c hc => h c (by simp [hc]))
    simp only [List.cons_append, List.takeWhile_cons, List.dropWhile_cons]
    simp [ha, hr.1, hr.2]

theorem trimTrailing_eq (t : List Nat) (h : ∀ c ∈ t, isspaceB c = false) :
    trimTrailing t = t := by
  unfold trimTrailing
  match h' : t.reverse with
  | [] =>
    have : t = [] := by simpa using congrArg List.reverse h'
    simp [this]
  | c :: rest =>
    have hc : c ∈ t := by
      rw [← List.mem_reverse, h']
      simp
    rw [List.dropWhile_cons, if_neg (by simp [h c hc]), ← h', List.reverse_reverse]

theorem mem_digits4 (b0 b1 b2 : Nat) :
    ∀ dd ∈ digits4 b0 b1 b2, ∃ n, n < 64 ∧ dd = nib2b64 n := by
  intro dd hd
  simp only [digits4, List.mem_cons, List.not_mem_nil, or_false] at hd
  rcases hd with h | h | h | h <;>
    exact ⟨_, by rw [extract_fc]; exact Nat.mod_lt _ (by norm_num), h⟩

theorem mem_chunksDigits : ∀ v : List Nat, ∀ dd ∈ b64chunksDigits v,
    ∃ n, n < 64 ∧ dd = nib2b64 n
  | [] => by simp [b64chunksDigits]
  | [b0] => by
    simp only [b64chunksDigits]
    exact mem_digits4 b0 0 0
  | [b0, b1] => by
    simp only [b64chunksDigits]
    exact mem_digits4 b0 b1 0
  | b0 :: b1 :: b2 :: rest => by
    intro dd hd
    simp only [b64chunksDigits, List.mem_append] at hd
    rcases hd with h | h
    · exact mem_digits4 b0 b1 b2 dd h
    · exact mem_chunksDigits rest dd h

theorem mem_replaceLast (pad : Nat) (xs : List Nat) (dd : Nat)
    (h : dd ∈ replaceLastEq pad xs) : dd ∈ xs ∨ dd = 61 := by
  unfold replaceLastEq at h
  rcases List.mem_append.1 h with h1 | h2
  · exact Or.inl (List.mem_of_mem_take h1)
  · exact Or.inr (List.eq_of_mem_replicate h2)

theorem replaceLast_cons (pad y : Nat) (ys : List Nat) (h : pad ≤ ys.length) :
    replaceLastEq pad (y :: ys) = y :: replaceLastEq pad ys := by
  unfold replaceLastEq
  simp only [List.length_cons]
  rw [show ys.length + 1 - pad = (ys.length - pad) + 1 by omega, List.take_succ_cons,
    List.cons_append]

theorem parse_shape_plain (t V : List Nat) (ht : ValidType t)
    (hV1 : isspaceB (V.headD 0) = false) (hVne : V ≠ []) :
    str_parse_line (t ++ 58 :: 32 :: V) =
      .ok t (V.filter (fun c => !(c == 1))) (V.filter (fun c => !(c == 1))).length := by
  obtain ⟨c, t', rfl⟩ : ∃ c t', t = c :: t' := by
    match t, ht.1 with
    | c :: t', _ => exact ⟨c, t', rfl⟩
  obtain ⟨w, V', rfl⟩ : ∃ w V', V = w :: V' := by
    match V, hVne with
    | w :: V', _ => exact ⟨w, V', rfl⟩
  have hsp : ∀ x ∈ c :: t', isspaceB x = false := fun x hx =>
    isspaceB_false_of_33 x (ht.2 x hx).1
  have h58 : ∀ x ∈ c :: t', x ≠ 58 := fun x hx => (ht.2 x hx).2.2
  have hsc := scan_colon (c :: t') (32 :: w :: V') h58
  simp only [List.cons_append] at hsc
  simp only [List.headD_cons] at hV1
  simp only [str_parse_line, List.cons_append, List.dropWhile_cons,
    hsp c (by simp), Bool.false_eq_true, if_false, hsc.1, hsc.2,
    List.headD_cons, trimTrailing_eq (c :: t') hsp, hV1,
    show ((32 : Nat) == 58) = false by decide,
    show isspaceB 32 = true by decide, if_true,
    List.isEmpty_cons, Bool.false_eq_true]

theorem parse_shape_b64 (t V bs : List Nat) (ht : ValidType t)
    (hV1 : isspaceB (V.headD 0) = false) (hVne : V ≠ [])
    (hdec : b64decodeLoop (V.filter (fun c => !(c == 1))) = some bs) :
    str_parse_line (t ++ 58 :: 58 :: 32 :: V) = .ok t bs bs.length := by
  obtain ⟨c, t', rfl⟩ : ∃ c t', t = c :: t' := by
    match t, ht.1 with
    | c :: t', _ => exact ⟨c, t', rfl⟩
  obtain ⟨w, V', rfl⟩ : ∃ w V', V = w :: V' := by
    match V, hVne with
    | w :: V', _ => exact ⟨w, V', rfl⟩
  have hsp : ∀ x ∈ c :: t', isspaceB x = false := fun x hx =>
    isspaceB_false_of_33 x (ht.2 x hx).1
  have h58 : ∀ x ∈ c :: t', x ≠ 58 := fun x hx => (ht.2 x hx).2.2
  have hsc := scan_colon (c :: t') (58 :: 32 :: w :: V') h58
  simp only [List.cons_append] at hsc
  simp only [List.headD_cons] at hV1
  simp only [str_parse_line, List.cons_append, List.dropWhile_cons,
    hsp c (by simp), Bool.false_eq_true, if_false, hsc.1, hsc.2,
    List.headD_cons, trimTrailing_eq (c :: t') hsp, hV1,
    show ((58 : Nat) == 58) = true by decide,
    show isspaceB 58 = false by decide,
    show isspaceB 32 = true by decide, if_true, List.tail_cons,
    List.isEmpty_cons, Bool.false_eq_true, hdec]

theorem plainScan_eq_foldSpaced (v : List Nat) (len : Nat)
    (h : ∀ b ∈ v, printOKB b = true) :
    plainScan v len = some (foldSpaced v len) := by
  induction v generalizing len with
  | nil => simp [plainScan, foldSpaced]
  | cons b rest ih =>
    have hb := h b (by simp)
    have hr : ∀ c ∈ rest, printOKB c = true := fun c hc => h c (by simp [hc])
    simp only [plainScan, foldSpaced, hb, Bool.not_true, Bool.false_eq_true, if_false]
    split <;> simp [ih _ hr]

theorem plainScan_none_iff (v : List Nat) (len : Nat) :
    plainScan v len = none ↔ ∃ b ∈ v, printOKB b = false := by
  induction v generalizing len with
  | nil => simp [plainScan]
  | cons b rest ih =>
    simp only [plainScan]
    by_cases hb : printOKB b = true
    · rw [if_neg (by simp [hb])]
      split <;> simp [Option.map_eq_none', ih, hb]
    · simp only [Bool.not_eq_true] at hb
      simp only [hb, Bool.not_false, if_true]
      constructor
      · intro _
        exact ⟨b, by simp, hb⟩
      · intro _
        trivial

theorem put_plain (t v : List Nat) (hsel : encodeB64Sel t v = false) :
    put_type_and_value t v =
      t ++ 58 :: 32 :: (foldSpaced v (t.length + 1) ++ [10]) := by
  unfold encodeB64Sel at hsel
  simp only [Bool.or_eq_false_iff] at hsel
  obtain ⟨hfs, hpn⟩ := hsel
  have hall : ∀ b ∈ v, printOKB b = true := by
    intro b hb
    by_contra hx
    have : plainScan v (t.length + 1) = none :=
      (plainScan_none_iff v _).2 ⟨b, hb, by simpa using hx⟩
    simp [this] at hpn
  unfold put_type_and_value
  simp only [hfs, Bool.false_eq_true, if_false,
    plainScan_eq_foldSpaced v _ hall]

theorem put_b64 (t v : List Nat) (hsel : encodeB64Sel t v = true) :
    put_type_and_value t v = t ++ 58 :: 58 :: 32 ::
      (replaceLastEq (padOf v.length)
        (foldSpaced (b64chunksDigits v) (t.length + 3)) ++ [10]) := by
  unfold encodeB64Sel at hsel
  by_cases hfs : firstSpecial v = true
  · unfold put_type_and_value
    simp [hfs]
  · simp only [Bool.not_eq_true] at hfs
    rw [hfs, Bool.false_or] at hsel
    have h2 : plainScan v (t.length + 1) = none := by
      simpa [Option.isNone_iff_eq_none] using hsel
    unfold put_type_and_value
    simp [hfs, h2]

theorem sel_false_printable (t v : List Nat) (hsel : encodeB64Sel t v = false) :
    ∀ b ∈ v, printOKB b = true := by
  intro b hb
  unfold encodeB64Sel at hsel
  simp only [Bool.or_eq_false_iff] at hsel
  by_contra hx
  have : plainScan v (t.length + 1) = none :=
    (plainScan_none_iff v _).2 ⟨b, hb, by simpa using hx⟩
  simp [this] at hsel

theorem printOK_facts (b : Nat) (h : printOKB b = true) :
    32 ≤ b ∧ b ≤ 126 := by
  simp only [printOKB, isasciiB, isprintB, Bool.and_eq_true, decide_eq_true_eq] at h
  omega

theorem roundtrip_plain (t v : List Nat) (ht : ValidType t) (hvne : v ≠ [])
    (hsel : encodeB64Sel t v = false) :
    str_parse_line (joinScan (put_type_and_value t v)) = .ok t v v.length := by
  have hall := sel_false_printable t v hsel
  have hv10 : ∀ b ∈ v, b ≠ 10 := by
    intro b hb
    have := printOK_facts b (hall b hb)
    omega
  have hv1 : ∀ b ∈ v, b ≠ 1 := by
    intro b hb
    have := printOK_facts b (hall b hb)
    omega
  have ht10 : ∀ b ∈ t, b ≠ 10 := by
    intro b hb
    have := (ht.2 b hb).1
    omega
  rw [put_plain t v hsel, joinScan_append t _ ht10,
    joinScan_cons 58 _ (by omega), joinScan_cons 32 _ (by omega),
    joinScan_foldSpaced v _ hv10]
  obtain ⟨w, V', hw⟩ : ∃ w V', v = w :: V' := by
    match v, hvne with
    | w :: V', _ => exact ⟨w, V', rfl⟩
  have hw0 : isspaceB w = false := by
    have hfs : firstSpecial v = false := by
      unfold encodeB64Sel at hsel
      exact (Bool.or_eq_false_iff.1 hsel).1
    unfold firstSpecial at hfs
    rw [hw] at hfs
    simp only [List.headD_cons] at hfs
    have hwp := printOK_facts w (hall w (by rw [hw]; simp))
    rw [show isasciiB w = true by simp [isasciiB]; omega, Bool.true_and] at hfs
    exact (Bool.or_eq_false_iff.1 hfs).1
  have hFM := foldMarked_shape w V' (t.length + 1)
  have hV1 : isspaceB ((foldMarked v (t.length + 1)).headD 0) = false := by
    rw [hw]
    rcases hFM with h | h <;> rw [h] <;> simp only [List.headD_cons]
    · decide
    · exact hw0
  have hVne2 : foldMarked v (t.length + 1) ≠ [] := by
    rw [hw]
    rcases hFM with h | h <;> rw [h] <;> simp
  rw [parse_shape_plain t _ ht hV1 hVne2, filter_foldMarked v _ hv1]

theorem padOf_le_two (n : Nat) : padOf n ≤ 2 := by
  unfold padOf
  split
  · omega
  · split <;> omega

theorem replaceLastEq_length (pad : Nat) (xs : List Nat) (h : pad ≤ xs.length) :
    (replaceLastEq pad xs).length = xs.length := by
  unfold replaceLastEq
  simp only [List.length_append, List.length_take, List.length_replicate]
  omega

theorem nib_char_facts : ∀ n, n < 64 → nib2b64 n ≠ 10 ∧ nib2b64 n ≠ 1 ∧
    isspaceB (nib2b64 n) = false ∧ nib2b64 n ≠ 32 := by decide

theorem chunks_length_ge (v : List Nat) (hvne : v ≠ []) :
    4 ≤ (b64chunksDigits v).length := by
  rw [chunks_length]
  match v, hvne with
  | b :: rest, _ =>
    simp only [List.length_cons]
    omega

theorem replaceLast_fold_commute (t v : List Nat) (hvne : v ≠ [])
    (hnc : ¬ padFoldCollision t v) :
    replaceLastEq (padOf v.length) (foldSpaced (b64chunksDigits v) (t.length + 3)) =
      foldSpaced (replaceLastEq (padOf v.length) (b64chunksDigits v)) (t.length + 3) := by
  have hD4 := chunks_length_ge v hvne
  rcases (show padOf v.length = 0 ∨ padOf v.length = 1 ∨ padOf v.length = 2 by
    have := padOf_le_two v.length
    omega) with hpad | hpad | hpad
  · rw [hpad, replaceLastEq_zero, replaceLastEq_zero]
  · rw [hpad]
    obtain ⟨init, d, hsplit⟩ : ∃ init d, b64chunksDigits v = init ++ [d] := by
      have h1 : b64chunksDigits v ≠ [] := by
        intro h
        rw [h] at hD4
        simp at hD4
      exact ⟨_, _, (List.dropLast_append_getLast h1).symm⟩
    rw [hsplit, replaceLast1_commute,
      replaceLastEq_append 1 init [d] (by simp)]
    rfl
  · rw [hpad]
    obtain ⟨init, c, d, hsplit⟩ := exists_split_pair (b64chunksDigits v) (by omega)
    have hc32 : c ≠ 32 := by
      have hcm : c ∈ b64chunksDigits v := by
        rw [hsplit]
        simp
      obtain ⟨n, hn, hcn⟩ := mem_chunksDigits v c hcm
      rw [hcn]
      exact (nib_char_facts n hn).2.2.2
    have h76 : lenAfter init (t.length + 3) ≠ 76 := by
      intro heq
      apply hnc
      refine ⟨hpad, ?_⟩
      rw [hsplit]
      exact (collision_char init c d (t.length + 3) hc32).2 heq
    rw [hsplit, replaceLast2_commute init c d _ h76,
      replaceLastEq_append 2 init [c, d] (by simp)]
    rfl

theorem mem_padded_digits (v : List Nat) (dd : Nat)
    (h : dd ∈ replaceLastEq (padOf v.length) (b64chunksDigits v)) :
    dd ≠ 10 ∧ dd ≠ 1 ∧ isspaceB dd = false := by
  rcases mem_replaceLast _ _ _ h with hm | h61
  · obtain ⟨n, hn, hdn⟩ := mem_chunksDigits v dd hm
    have := nib_char_facts n hn
    rw [hdn]
    exact ⟨this.1, this.2.1, this.2.2.1⟩
  · rw [h61]
    refine ⟨by omega, by omega, by decide⟩

theorem roundtrip_b64 (t v : List Nat) (ht : ValidType t) (hv : ValidBytes v)
    (hvne : v ≠ []) (hsel : encodeB64Sel t v = true)
    (hnc : ¬ padFoldCollision t v) :
    str_parse_line (joinScan (put_type_and_value t v)) = .ok t v v.length := by
  have hD4 := chunks_length_ge v hvne
  have hpadle : padOf v.length ≤ (b64chunksDigits v).length := by
    have := padOf_le_two v.length
    omega
  have hBlen : (replaceLastEq (padOf v.length) (b64chunksDigits v)).length =
      (b64chunksDigits v).length := replaceLastEq_length _ _ hpadle
  have hBne : replaceLastEq (padOf v.length) (b64chunksDigits v) ≠ [] := by
    intro h
    rw [h] at hBlen
    simp at hBlen
    omega
  have hB10 : ∀ b ∈ replaceLastEq (padOf v.length) (b64chunksDigits v), b ≠ 10 :=
    fun b hb => (mem_padded_digits v b hb).1
  have hB1 : ∀ b ∈ replaceLastEq (padOf v.length) (b64chunksDigits v), b ≠ 1 :=
    fun b hb => (mem_padded_digits v b hb).2.1
  have ht10 : ∀ b ∈ t, b ≠ 10 := by
    intro b hb
    have := (ht.2 b hb).1
    omega
  rw [put_b64 t v hsel, replaceLast_fold_commute t v hvne hnc,
    joinScan_append t _ ht10, joinScan_cons 58 _ (by omega),
    joinScan_cons 58 _ (by omega), joinScan_cons 32 _ (by omega),
    joinScan_foldSpaced _ _ hB10]
  have hV1 : isspaceB ((foldMarked
      (replaceLastEq (padOf v.length) (b64chunksDigits v)) (t.length + 3)).headD 0)
      = false := by
    obtain ⟨w, W, hW⟩ : ∃ w W, replaceLastEq (padOf v.length) (b64chunksDigits v)
        = w :: W := by
      match hx : replaceLastEq (padOf v.length) (b64chunksDigits v), hBne with
      | w :: W, _ => exact ⟨w, W, rfl⟩
    have hwmem : w ∈ replaceLastEq (padOf v.length) (b64chunksDigits v) := by
      rw [hW]
      simp
    have hwsp := (mem_padded_digits v w hwmem).2.2
    rw [hW]
    rcases foldMarked_shape w W (t.length + 3) with h | h <;> rw [h] <;>
      simp only [List.headD_cons]
    · decide
    · exact hwsp
  have hVne2 : foldMarked (replaceLastEq (padOf v.length) (b64chunksDigits v))
      (t.length + 3) ≠ [] := by
    obtain ⟨w, W, hW⟩ : ∃ w W, replaceLastEq (padOf v.length) (b64chunksDigits v)
        = w :: W := by
      match hx : replaceLastEq (padOf v.length) (b64chunksDigits v), hBne with
      | w :: W, _ => exact ⟨w, W, rfl⟩
    rw [hW]
    rcases foldMarked_shape w W (t.length + 3) with h | h <;> rw [h] <;> simp
  have hdec : b64decodeLoop ((foldMarked
      (replaceLastEq (padOf v.length) (b64chunksDigits v))
      (t.length + 3)).filter (fun c => !(c == 1))) = some v := by
    rw [filter_foldMarked _ _ hB1]
    exact b64_roundtrip v hv
  rw [parse_shape_b64 t _ v ht hV1 hVne2 hdec]

theorem foldSpaced_length_ge (p : List Nat) (len : Nat) :
    p.length ≤ (foldSpaced p len).length := by
  induction p generalizing len with
  | nil => simp [foldSpaced]
  | cons b rest ih =>
    simp only [foldSpaced]
    split <;> simp only [List.length_cons] <;>
      [exact Nat.le_trans (Nat.succ_le_succ (ih 2)) (by omega);
       exact Nat.succ_le_succ (ih (len + 1))]

theorem parse_shape_b64_err (t V : List Nat) (ht : ValidType t)
    (hV1 : isspaceB (V.headD 0) = false) (hVne : V ≠ [])
    (hdec : b64decodeLoop (V.filter (fun c => !(c == 1))) = none) :
    str_parse_line (t ++ 58 :: 58 :: 32 :: V) = .err .invalidBase64Char := by
  obtain ⟨c, t', rfl⟩ : ∃ c t', t = c :: t' := by
    match t, ht.1 with
    | c :: t', _ => exact ⟨c, t', rfl⟩
  obtain ⟨w, V', rfl⟩ : ∃ w V', V = w :: V' := by
    match V, hVne with
    | w :: V', _ => exact ⟨w, V', rfl⟩
  have hsp : ∀ x ∈ c :: t', isspaceB x = false := fun x hx =>
    isspaceB_false_of_33 x (ht.2 x hx).1
  have h58 : ∀ x ∈ c :: t', x ≠ 58 := fun x hx => (ht.2 x hx).2.2
  have hsc := scan_colon (c :: t') (58 :: 32 :: w :: V') h58
  simp only [List.cons_append] at hsc
  simp only [List.headD_cons] at hV1
  simp only [str_parse_line, List.cons_append, List.dropWhile_cons,
    hsp c (by simp), Bool.false_eq_true, if_false, hsc.1, hsc.2,
    List.headD_cons, trimTrailing_eq (c :: t') hsp, hV1,
    show ((58 : Nat) == 58) = true by decide,
    show isspaceB 58 = false by decide,
    show isspaceB 32 = true by decide, if_true, List.tail_cons,
    List.isEmpty_cons, Bool.false_eq_true, hdec]

theorem b64InvalidQ_zero : b64InvalidQ 0 = true := by decide

theorem b64step_bad_of (p0 p1 p2 p3 : Nat)
    (h : b64InvalidQ p0 = true ∨ b64InvalidQ p1 = true ∨ b64InvalidQ p2 = true) :
    b64step p0 p1 p2 p3 = .bad := by
  unfold b64step
  rcases h with h | h | h <;> simp [h]

theorem b64decodeLoop_err (pre : List (List Nat)) (g : List Nat)
    (hpre : ∀ q ∈ pre, ∃ a b c d, q = [a, b, c, d] ∧ b64InvalidQ a = false ∧
      b64InvalidQ b = false ∧ b64InvalidQ c = false ∧
      (c == 61) = false ∧ (d == 61) = false)
    (hg : g ≠ [])
    (hbad : ∃ i, i < 3 ∧ b64InvalidQ (g.getD i 0) = true) :
    b64decodeLoop (pre.flatten ++ g) = none := by
  induction pre with
  | nil =>
    simp only [List.flatten_nil, List.nil_append]
    obtain ⟨i, hi3, hbi⟩ := hbad
    match g, hg with
    | [p0], _ =>
      have hb : b64InvalidQ p0 = true ∨ b64InvalidQ 0 = true ∨ b64InvalidQ 0 = true :=
        Or.inr (Or.inl b64InvalidQ_zero)
      simp only [b64decodeLoop, b64step_bad_of _ _ _ _ hb]
    | [p0, p1], _ =>
      have hb : b64InvalidQ p0 = true ∨ b64InvalidQ p1 = true ∨ b64InvalidQ 0 = true :=
        Or.inr (Or.inr b64InvalidQ_zero)
      simp only [b64decodeLoop, b64step_bad_of _ _ _ _ hb]
    | [p0, p1, p2], _ =>
      have hb : b64InvalidQ p0 = true ∨ b64InvalidQ p1 = true ∨ b64InvalidQ p2 = true := by
        rcases (show i = 0 ∨ i = 1 ∨ i = 2 by omega) with rfl | rfl | rfl <;>
          simp only [List.getD] at hbi <;> simp [hbi] at *
        · exact Or.inl hbi
        · exact Or.inr (Or.inl hbi)
        · exact Or.inr (Or.inr hbi)
      simp only [b64decodeLoop, b64step_bad_of _ _ _ _ hb]
    | p0 :: p1 :: p2 :: p3 :: rest, _ =>
      have hb : b64InvalidQ p0 = true ∨ b64InvalidQ p1 = true ∨ b64InvalidQ p2 = true := by
        rcases (show i = 0 ∨ i = 1 ∨ i = 2 by omega) with rfl | rfl | rfl
        · exact Or.inl hbi
        · exact Or.inr (Or.inl hbi)
        · exact Or.inr (Or.inr hbi)
      simp only [b64decodeLoop, b64step_bad_of _ _ _ _ hb]
  | cons q pre' ih =>
    obtain ⟨a, b, c, d, rfl, ha, hbq, hcq, hc61, hd61⟩ := hpre q (by simp)
    have ihh := ih (fun q hq => hpre q (by simp [hq]))
    simp only [List.flatten_cons, List.append_assoc, List.cons_append, List.nil_append]
    show b64decodeLoop (a :: b :: c :: d :: (pre'.flatten ++ g)) = none
    simp only [b64decodeLoop]
    unfold b64step
    simp only [ha, hbq, hcq, Bool.or_self, Bool.or_false, Bool.false_eq_true, if_false,
      hc61, hd61, ihh, Option.map_none']

theorem C10_helper_b64_len (t v : List Nat) (hsel : encodeB64Sel t v = true) :
    (put_type_and_value t v).length + 1 ≤ LDIF_SIZE_NEEDED t.length v.length + 1 := by
  have hvne : v ≠ [] := by
    intro h
    subst h
    simp [encodeB64Sel, firstSpecial, plainScan, isasciiB, isspaceB] at hsel
  have hD4 := chunks_length_ge v hvne
  have hpadle : padOf v.length ≤ (foldSpaced (b64chunksDigits v) (t.length + 3)).length := by
    have h1 := padOf_le_two v.length
    have h2 := foldSpaced_length_ge (b64chunksDigits v) (t.length + 3)
    omega
  rw [put_b64 t v hsel]
  simp only [List.length_append, List.length_cons, replaceLastEq_length _ _ hpadle,
    List.length_nil]
  have hfl := foldSpaced_length_le (b64chunksDigits v) (t.length + 3) (by omega)
  rw [chunks_length] at hfl
  have hDB : 4 * ((v.length + 2) / 3) ≤ LDIF_BASE64_LEN v.length := by
    unfold LDIF_BASE64_LEN
    omega
  have hdiv : (4 * ((v.length + 2) / 3) + (t.length + 3) - 1) / 76 ≤
      (LDIF_BASE64_LEN v.length + t.length + 3) / 76 :=
    Nat.div_le_div_right (by omega)
  unfold LDIF_SIZE_NEEDED
  omega

theorem C10_helper_plain_len (t v : List Nat) (hsel : encodeB64Sel t v = false) :
    (put_type_and_value t v).length + 1 ≤ LDIF_SIZE_NEEDED t.length v.length + 1 := by
  rw [put_plain t v hsel]
  simp only [List.length_append, List.length_cons, List.length_nil]
  have hfl := foldSpaced_length_le v (t.length + 1) (by omega)
  have hB : v.length + 3 ≤ LDIF_BASE64_LEN v.length := by
    unfold LDIF_BASE64_LEN
    omega
  have hdiv : (v.length + (t.length + 1) - 1) / 76 ≤
      (LDIF_BASE64_LEN v.length + t.length + 3) / 76 :=
    Nat.div_le_div_right (by omega)
  unfold LDIF_SIZE_NEEDED
  omega

theorem C10_helper_transient (t v : List Nat) :
    t.length + 2 + (foldSpaced (v.takeWhile printOKB) (t.length + 1)).length + 1 ≤
      LDIF_SIZE_NEEDED t.length v.length + 1 := by
  have hk : (v.takeWhile printOKB).length ≤ v.length :=
    (List.takeWhile_sublist printOKB).length_le
  have hfl := foldSpaced_length_le (v.takeWhile printOKB) (t.length + 1) (by omega)
  have hB : v.length + 3 ≤ LDIF_BASE64_LEN v.length := by
    unfold LDIF_BASE64_LEN
    omega
  have hdiv : ((v.takeWhile printOKB).length + (t.length + 1) - 1) / 76 ≤
      (LDIF_BASE64_LEN v.length + t.length + 3) / 76 :=
    Nat.div_le_div_right (by omega)
  unfold LDIF_SIZE_NEEDED
  omega

/-- C1, counterexample: the round-trip claim fails as stated.  For the empty
byte sequence, `put_type_and_value` emits `"cn: \n"` and decoding the joined
logical line yields the missing-value error instead of `("cn", "", 0)`; and
for the type `"man"` with 52 bytes `0xff`, the `'='` pad overwrite of
ldif.c:312-314 lands on a folding space, the joined line is cut short at the
orphaned newline, and decoding does not return the original triple. -/
theorem C1_roundtrip_counterexample :
    str_parse_line (joinScan (put_type_and_value [99, 110] [])) =
      .err .missingValue ∧
    str_parse_line (joinScan (put_type_and_value [109, 97, 110]
        (List.replicate 52 255))) ≠
      .ok [109, 97, 110] (List.replicate 52 255) 52 := by
  exact ⟨by decide, by decide⟩

/-- C1, amended: for every nonempty byte sequence `v` and valid attribute
name `t`, provided the pad overwrite does not land on a fold space (the case
`vlen % 3 = 1` with a fold immediately before the final base-64 digit),
decoding the logical line produced by joining the encoder's fragment returns
exactly `(t, v, len v)`. -/
theorem C1_roundtrip_amended (t v : List Nat) (ht : ValidType t)
    (hv : ValidBytes v) (hvne : v ≠ []) (hnc : ¬ padFoldCollision t v) :
    str_parse_line (joinScan (put_type_and_value t v)) = .ok t v v.length := by
  by_cases hsel : encodeB64Sel t v = true
  · exact roundtrip_b64 t v ht hv hvne hsel hnc
  · exact roundtrip_plain t v ht hvne (by simpa using hsel)

/-- Witness for C1: the amended round trip evaluated on a plain-path input
(`("cn", "Jo", 2)`) and on a base-64-path input (`("cn", 0xff, 1)`). -/
theorem C1_roundtrip_witness :
    str_parse_line (joinScan (put_type_and_value [99, 110] [74, 111])) =
      .ok [99, 110] [74, 111] 2 ∧
    str_parse_line (joinScan (put_type_and_value [99, 110] [255])) =
      .ok [99, 110] [255] 1 := by
  constructor
  · exact C1_roundtrip_amended [99, 110] [74, 111] (by unfold ValidType; decide)
      (by unfold ValidBytes; decide) (by decide) (by unfold padFoldCollision; decide)
  · exact C1_roundtrip_amended [99, 110] [255] (by unfold ValidType; decide)
      (by unfold ValidBytes; decide) (by decide) (by unfold padFoldCollision; decide)

/-- C2, counterexample: the claim says an invalid character at any position
of a 4-character group fails with `InvalidBase64Char`, but the check of
ldif.c:135-144 only covers the first three positions.  `decode("cn:: AAA!")`
has the non-alphabet character `'!'` in the fourth position and succeeds,
consuming `b642nib['!'] = 0xff` into the third decoded byte. -/
theorem C2_fourth_position_unchecked :
    str_parse_line [99, 110, 58, 58, 32, 65, 65, 65, 33] =
      .ok [99, 110] [0, 0, 255] 3 := by decide

/-- C2, amended: an invalid non-`'='` character in the first, second or third
position of the 4-character group being decoded makes `str_parse_line` fail
with `InvalidBase64Char` (after any number of earlier groups that pass the
check and do not terminate decoding); the fourth position is not checked. -/
theorem C2_invalid_char_positions (t : List Nat) (pre : List (List Nat))
    (g : List Nat) (ht : ValidType t)
    (hpre : ∀ q ∈ pre, q.length = 4 ∧ b64InvalidQ (q.getD 0 0) = false ∧
      b64InvalidQ (q.getD 1 0) = false ∧ b64InvalidQ (q.getD 2 0) = false ∧
      (q.getD 2 0 == 61) = false ∧ (q.getD 3 0 == 61) = false)
    (hpre1 : ∀ q ∈ pre, ∀ c ∈ q, c ≠ 1)
    (hg : g ≠ []) (hg1 : ∀ c ∈ g, c ≠ 1)
    (hhead : isspaceB ((pre.flatten ++ g).headD 0) = false)
    (hbad : ∃ i, i < 3 ∧ b64InvalidQ (g.getD i 0) = true) :
    str_parse_line (t ++ 58 :: 58 :: 32 :: (pre.flatten ++ g)) =
      .err .invalidBase64Char := by
  apply parse_shape_b64_err t _ ht hhead
  · intro h
    exact hg (List.append_eq_nil.1 h).2
  · have hfilter : (pre.flatten ++ g).filter (fun c => !(c == 1)) =
        pre.flatten ++ g := by
      apply List.filter_eq_self.2
      intro c hc
      rcases List.mem_append.1 hc with h | h
      · obtain ⟨q, hq, hcq⟩ := List.mem_flatten.1 h
        simp [hpre1 q hq c hcq]
      · simp [hg1 c h]
    rw [hfilter]
    apply b64decodeLoop_err pre g ?_ hg hbad
    intro q hq
    obtain ⟨hlen, h0, h1, h2, h2e, h3e⟩ := hpre q hq
    match q, hlen with
    | [a, b, c, d], _ => exact ⟨a, b, c, d, rfl, h0, h1, h2, h2e, h3e⟩

/-- Witness for C2: the spec's own error example `decode("cn:: not-valid-base64!")`,
whose third group `"d-ba"` carries the invalid `'-'` in its second position. -/
theorem C2_invalid_char_witness :
    str_parse_line ([99, 110] ++ 58 :: 58 :: 32 ::
        ([[110, 111, 116, 45], [118, 97, 108, 105]].flatten ++
          [100, 45, 98, 97, 115, 101, 54, 52, 33])) =
      .err .invalidBase64Char := by
  exact C2_invalid_char_positions [99, 110]
    [[110, 111, 116, 45], [118, 97, 108, 105]]
    [100, 45, 98, 97, 115, 101, 54, 52, 33]
    (by unfold ValidType; decide) (by decide) (by decide) (by decide) (by decide)
    (by decide) ⟨1, by decide, by decide⟩

/-- C3, code bug: `LDIF_LINE_WIDTH` is documented in ldif.c:32 as the
"maximum length of LDIF lines" (76), and the claim repeats that every
physical line is at most 76 columns — but the running count of the plain
path never counts the space written after the colon (ldif.c:239-241) and the
fold check fires only when the count already exceeds 76, so the first
physical line of `encode("cn", 80 * "a", 80)` is 78 columns wide. -/
theorem C3_line_width_exceeded :
    ((put_type_and_value [99, 110] (List.replicate 80 97)).takeWhile
        (fun c => !(c == 10))).length = 78 := by decide

/-- C4, code bug: the only overflow check of `ldif_type_and_value`
(ldif.c:334) is `(bufsize = t + 1) <= t` on the `size_t` result; the `int`
arithmetic of `LDIF_SIZE_NEEDED` itself is unchecked.  At `tlen = 2`,
`vlen = 2^30` the multiplication `vlen * 4` wraps to 0 in 32-bit `int`, the
computed size is 9, the check passes, and a 10-byte buffer is allocated
although the true worst-case size exceeds 1.4 GB. -/
theorem C4_overflow_check_missed :
    ldifCheckPasses 2 (2 ^ 30) = true ∧
    ldif_size_needed_i 2 (2 ^ 30) = 9 ∧
    9 + 1 < LDIF_SIZE_NEEDED 2 (2 ^ 30) := by
  exact ⟨by decide, by decide, by decide⟩

/-- C9, code bug: the claim (and the fragment invariant of the spec) says
every continuation line begins with exactly one space — but when
`vlen % 3 = 1` and a fold falls immediately before the last base-64 digit,
the pad overwrite `*(*out - pad) = '='` of ldif.c:312-314 replaces the
folding space with `'='`.  For `encode("man", 52 * 0xff, 52)` the fragment
ends `"...\n==\n"`: the final continuation line is `"=="`, and joining and
re-decoding it does not reproduce the original value. -/
theorem C9_fold_space_overwritten :
    (put_type_and_value [109, 97, 110] (List.replicate 52 255)).drop
        ((put_type_and_value [109, 97, 110] (List.replicate 52 255)).length - 4) =
      [10, 61, 61, 10] ∧
    str_parse_line (joinScan (put_type_and_value [109, 97, 110]
        (List.replicate 52 255))) ≠
      .ok [109, 97, 110] (List.replicate 52 255) 52 := by
  exact ⟨by decide, by decide⟩

/-- C10: the single up-front allocation is never overrun — the furthest
position written by `put_type_and_value` (its final fragment plus the
terminating NUL, or the transient plain-path prefix abandoned when a
non-printable byte forces base 64) stays within
`LDIF_SIZE_NEEDED(strlen(type), vlen) + 1` bytes, the exact (non-overflowed)
size `ldif_type_and_value` allocates. -/
theorem C10_no_buffer_overrun (t v : List Nat) :
    maxWriteExtent t v ≤ LDIF_SIZE_NEEDED t.length v.length + 1 := by
  unfold maxWriteExtent
  apply max_le
  · by_cases hsel : encodeB64Sel t v = true
    · exact C10_helper_b64_len t v hsel
    · exact C10_helper_plain_len t v (by simpa using hsel)
  · exact C10_helper_transient t v

/-- C7: a line containing no colon fails with `MissingSeparator`
(ldif.c:88-93), and a line in which the colon — or double colon — is
followed only by whitespace or nothing fails with `MissingValue`
(ldif.c:111-121); no `(type, value, vlen)` triple is produced. -/
theorem C7_missing_errors (line pre mid : List Nat)
    (hline : ∀ c ∈ line, c ≠ 58)
    (hpre : ∀ c ∈ pre, c ≠ 58)
    (hmid : ∀ c ∈ mid, isspaceB c = true) :
    str_parse_line line = .err .missingSeparator ∧
    str_parse_line (pre ++ 58 :: mid) = .err .missingValue ∧
    str_parse_line (pre ++ 58 :: 58 :: mid) = .err .missingValue := by
  have hdwmid : mid.dropWhile isspaceB = [] :=
    List.dropWhile_eq_nil_iff.2 (fun x hx => hmid x hx)
  have hpr' : ∀ c ∈ pre.dropWhile isspaceB, c ≠ 58 := fun c hc =>
    hpre c ((List.dropWhile_sublist _).subset hc)
  refine ⟨?_, ?_, ?_⟩
  · have h1 : ∀ c ∈ line.dropWhile isspaceB, c ≠ 58 := fun c hc =>
      hline c ((List.dropWhile_sublist _).subset hc)
    have h2 : (line.dropWhile isspaceB).dropWhile (fun c => !(c == 58)) = [] :=
      List.dropWhile_eq_nil_iff.2 (fun x hx => by simp [h1 x hx])
    simp only [str_parse_line, h2]
  · have hl1 : (pre ++ 58 :: mid).dropWhile isspaceB =
        pre.dropWhile isspaceB ++ 58 :: mid := by
      rw [List.dropWhile_append]
      split
      · rename_i hemp
        rw [List.isEmpty_iff] at hemp
        rw [hemp, List.nil_append, List.dropWhile_cons,
          if_neg (by decide)]
      · rfl
    have hsc := scan_colon (pre.dropWhile isspaceB) mid hpr'
    have hb64 : (mid.headD 0 == 58) = false := by
      match mid with
      | [] => decide
      | m :: _ =>
        have hm := hmid m (by simp)
        simp only [isspaceB, Bool.or_eq_true, beq_iff_eq] at hm
        simp only [List.headD_cons, beq_eq_false_iff_ne]
        omega
    simp only [str_parse_line, hl1, hsc.2, hb64, Bool.false_eq_true, if_false,
      hdwmid, List.isEmpty_nil, if_true]
  · have hl1 : (pre ++ 58 :: 58 :: mid).dropWhile isspaceB =
        pre.dropWhile isspaceB ++ 58 :: 58 :: mid := by
      rw [List.dropWhile_append]
      split
      · rename_i hemp
        rw [List.isEmpty_iff] at hemp
        rw [hemp, List.nil_append, List.dropWhile_cons,
          if_neg (by decide)]
      · rfl
    have hsc := scan_colon (pre.dropWhile isspaceB) (58 :: mid) hpr'
    simp only [str_parse_line, hl1, hsc.2, List.headD_cons,
      show ((58 : Nat) == 58) = true by decide, if_true, List.tail_cons,
      hdwmid, List.isEmpty_nil]

/-- Witness for C7: the spec's examples `decode("noseparatorhere")` and
`decode("cn:   ")`, plus the double-colon variant `decode("cn::   ")`. -/
theorem C7_missing_errors_witness :
    str_parse_line [110, 111, 115, 101, 112, 97, 114, 97, 116, 111, 114,
        104, 101, 114, 101] = .err .missingSeparator ∧
    str_parse_line ([99, 110] ++ 58 :: [32, 32, 32]) = .err .missingValue ∧
    str_parse_line ([99, 110] ++ 58 :: 58 :: [32, 32, 32]) =
      .err .missingValue := by
  exact C7_missing_errors _ [99, 110] [32, 32, 32] (by decide) (by decide) (by decide)

/-- C8: each full 4-character group whose first three characters pass the
validity check and which contains no terminating `'='` contributes exactly 3
decoded bytes and decoding continues; `'='` in the 3rd position stops
decoding with exactly 1 byte for that group, `'='` in the 4th position with
exactly 2; and concretely `decode("cn:: Sm9obiBEb2U=")` yields
`("cn", "John Doe", 8)`. -/
theorem C8_group_contributions (a b c d : Nat) (rest : List Nat)
    (ha : b64InvalidQ a = false) (hb : b64InvalidQ b = false)
    (hc : b64InvalidQ c = false) (hc61 : (c == 61) = false)
    (hd61 : (d == 61) = false) :
    b64decodeLoop (a :: b :: c :: d :: rest) =
      (b64decodeLoop rest).map (fun tail =>
        decodeByte0 a b :: decodeByte1 b c :: decodeByte2 c d :: tail) ∧
    b64decodeLoop (a :: b :: 61 :: d :: rest) = some [decodeByte0 a b] ∧
    b64decodeLoop (a :: b :: c :: 61 :: rest) =
      some [decodeByte0 a b, decodeByte1 b c] ∧
    str_parse_line [99, 110, 58, 58, 32, 83, 109, 57, 111, 98, 105, 66, 69,
        98, 50, 85, 61] =
      .ok [99, 110] [74, 111, 104, 110, 32, 68, 111, 101] 8 := by
  refine ⟨?_, ?_, ?_, by decide⟩
  · simp only [b64decodeLoop]
    unfold b64step
    simp only [ha, hb, hc, Bool.or_self, Bool.or_false, Bool.false_eq_true,
      if_false, hc61, hd61]
    rfl
  · simp only [b64decodeLoop]
    unfold b64step
    simp only [ha, hb, show b64InvalidQ 61 = false by decide, Bool.or_self,
      Bool.or_false, Bool.false_eq_true, if_false,
      show ((61 : Nat) == 61) = true by decide, if_true]
  · simp only [b64decodeLoop]
    unfold b64step
    simp only [ha, hb, hc, Bool.or_self, Bool.or_false, Bool.false_eq_true,
      if_false, hc61, show ((61 : Nat) == 61) = true by decide, if_true]

/-- Witness for C8: the group laws evaluated on the alphabet group `"AAAA"`
followed by the stopped groups, and the concrete spec example. -/
theorem C8_group_contributions_witness :
    b64decodeLoop [65, 65, 65, 65] =
      (b64decodeLoop []).map (fun tail =>
        decodeByte0 65 65 :: decodeByte1 65 65 :: decodeByte2 65 65 :: tail) ∧
    b64decodeLoop [65, 65, 61, 65] = some [decodeByte0 65 65] ∧
    b64decodeLoop [65, 65, 65, 61] =
      some [decodeByte0 65 65, decodeByte1 65 65] ∧
    str_parse_line [99, 110, 58, 58, 32, 83, 109, 57, 111, 98, 105, 66, 69,
        98, 50, 85, 61] =
      .ok [99, 110] [74, 111, 104, 110, 32, 68, 111, 101] 8 := by
  have h := C8_group_contributions 65 65 65 65 [] (by decide) (by decide)
    (by decide) (by decide) (by decide)
  exact ⟨h.1, h.2.1, h.2.2.1, h.2.2.2⟩

/-- C5: on the base-64 path the emitted fragment carries exactly the pad
dictated by `vlen mod 3` — none for `0`, two `'='` for `1`, one `'='` for
`2` — and those pad characters sit immediately before the final newline. -/
theorem C5_padding_law (t v : List Nat) (hsel : encodeB64Sel t v = true)
    (ht61 : ∀ c ∈ t, c ≠ 61) :
    (put_type_and_value t v).count 61 = padOf v.length ∧
    (put_type_and_value t v).drop
        ((put_type_and_value t v).length - (padOf v.length + 1)) =
      List.replicate (padOf v.length) 61 ++ [10] ∧
    (v.length % 3 = 0 → padOf v.length = 0) ∧
    (v.length % 3 = 1 → padOf v.length = 2) ∧
    (v.length % 3 = 2 → padOf v.length = 1) := by
  have hcF : (foldSpaced (b64chunksDigits v) (t.length + 3)).count 61 = 0 := by
    rw [foldSpaced_count _ _ 61 (by omega) (by omega)]
    apply List.count_eq_zero.2
    intro hmem
    obtain ⟨n, hn, h61⟩ := mem_chunksDigits v 61 hmem
    have hne := nib_ne61 n hn
    rw [← h61] at hne
    simp at hne
  rw [put_b64 t v hsel]
  refine ⟨?_, ?_, fun h => by simp [padOf, h], fun h => by simp [padOf, h],
    fun h => by simp [padOf, h]⟩
  · have hcT : t.count 61 = 0 := List.count_eq_zero.2 (fun h => ht61 61 h rfl)
    have hctake : (List.take
        ((foldSpaced (b64chunksDigits v) (t.length + 3)).length - padOf v.length)
        (foldSpaced (b64chunksDigits v) (t.length + 3))).count 61 = 0 := by
      have hsub := (List.take_sublist
        ((foldSpaced (b64chunksDigits v) (t.length + 3)).length - padOf v.length)
        (foldSpaced (b64chunksDigits v) (t.length + 3))).count_le 61
      omega
    simp only [replaceLastEq, List.count_append, List.count_cons, hcT, hctake,
      List.count_replicate_self, List.count_nil]
    simp
  · have hre : t ++ 58 :: 58 :: 32 ::
        (replaceLastEq (padOf v.length)
          (foldSpaced (b64chunksDigits v) (t.length + 3)) ++ [10]) =
        (t ++ 58 :: 58 :: 32 :: List.take
          ((foldSpaced (b64chunksDigits v) (t.length + 3)).length - padOf v.length)
          (foldSpaced (b64chunksDigits v) (t.length + 3))) ++
          (List.replicate (padOf v.length) 61 ++ [10]) := by
      simp [replaceLastEq, List.append_assoc]
    rw [hre]
    have hlen : ((t ++ 58 :: 58 :: 32 :: List.take
        ((foldSpaced (b64chunksDigits v) (t.length + 3)).length - padOf v.length)
        (foldSpaced (b64chunksDigits v) (t.length + 3))) ++
          (List.replicate (padOf v.length) 61 ++ [10])).length -
        (padOf v.length + 1) =
        (t ++ 58 :: 58 :: 32 :: List.take
          ((foldSpaced (b64chunksDigits v) (t.length + 3)).length - padOf v.length)
          (foldSpaced (b64chunksDigits v) (t.length + 3))).length := by
      simp only [List.length_append, List.length_replicate, List.length_cons,
        List.length_nil]
      omega
    rw [hlen, List.drop_left]

/-- Witness for C5: `encode("cn", 0xff, 1)` carries two `'='` and the spec's
`encode("jpegPhoto", 3 * 0xff, 3)` carries none. -/
theorem C5_padding_witness :
    (put_type_and_value [99, 110] [255]).count 61 = 2 ∧
    (put_type_and_value [106, 112, 101, 103, 80, 104, 111, 116, 111]
        [255, 255, 255]).count 61 = 0 := by
  constructor
  · exact (C5_padding_law [99, 110] [255] (by decide) (by decide)).1.trans (by decide)
  · exact (C5_padding_law [106, 112, 101, 103, 80, 104, 111, 116, 111]
      [255, 255, 255] (by decide) (by decide)).1.trans (by decide)

/-- C6: the encoder selects base 64 exactly when the first value byte is
ASCII whitespace or `':'`, or some value byte is non-ASCII or non-printable;
otherwise the value is emitted on the plain path as `"type: value"` (with
folding). -/
theorem C6_representation_choice (t v : List Nat) :
    (encodeB64Sel t v = true ↔
      (v.headD 0 < 128 ∧ (isspaceB (v.headD 0) = true ∨ v.headD 0 = 58)) ∨
        ∃ b ∈ v, ¬(b < 128 ∧ 32 ≤ b ∧ b ≤ 126)) ∧
    (encodeB64Sel t v = false →
      put_type_and_value t v =
        t ++ 58 :: 32 :: (foldSpaced v (t.length + 1) ++ [10])) := by
  constructor
  · have h1 : firstSpecial v = true ↔
        (v.headD 0 < 128 ∧ (isspaceB (v.headD 0) = true ∨ v.headD 0 = 58)) := by
      unfold firstSpecial isasciiB
      simp [Bool.and_eq_true, Bool.or_eq_true, decide_eq_true_eq]
    have h2 : (plainScan v (t.length + 1)).isNone = true ↔
        ∃ b ∈ v, ¬(b < 128 ∧ 32 ≤ b ∧ b ≤ 126) := by
      rw [Option.isNone_iff_eq_none, plainScan_none_iff]
      apply exists_congr
      intro b
      apply and_congr_right
      intro _
      rw [show (printOKB b = false) ↔ ¬(printOKB b = true) by simp,
        show printOKB b = true ↔ (b < 128 ∧ 32 ≤ b ∧ b ≤ 126) by
          simp [printOKB, isasciiB, isprintB, and_assoc]]
    unfold encodeB64Sel
    rw [Bool.or_eq_true, h1, h2]
  · exact put_plain t v

/-- Witness for C6: `("cn", "Jo")` is all printable ASCII, selects the plain
path, and is emitted as `"cn: Jo\n"`. -/
theorem C6_representation_witness :
    encodeB64Sel [99, 110] [74, 111] = false ∧
    put_type_and_value [99, 110] [74, 111] =
      [99, 110] ++ 58 :: 32 :: (foldSpaced [74, 111] ([99, 110].length + 1) ++ [10]) := by
  exact ⟨by decide, (C6_representation_choice [99, 110] [74, 111]).2 (by decide)⟩
